import Mathlib

/-!
Verification of the hierarchical todo model of `vimtodo` (`src/main.py`).

The embedding models the `TodoApp` class: a task forest, path-based
addressing, a pre-order flattening, undo/redo snapshot stacks, and the
mutating operations (`add_todo`, `edit_todo`, `toggle_todo`,
`delete_todo`, `paste_todo`, `add_subtask`) plus `undo`, `redo` and
`enter_visual_mode`.

Modelling conventions:
* A todo dict `{"text": ..., "completed": ..., "children"?: [...]}` becomes
  `Todo`.  A missing `children` key and an empty children list behave
  identically in every operation modelled here (the flattening recurses only
  into a non-empty children list; `get_todo_by_path` uses
  `todo.get("children", [])`; the `"children" in parent` guards in
  `delete_todo` / `paste_todo` can only be reached through a path produced by
  the flattening, whose parent then has a non-empty children list), so
  `children` is modelled as a plain list.
* Python's in-place dict mutation through an object obtained by
  `get_todo_by_path` is modelled as a functional update along that path
  (`modify_at`); the update leaves the forest unchanged exactly when the path
  is invalid, matching the fact that the Python code never obtains an object
  to mutate in that case.
* `copy.deepcopy` of a forest is a value copy, hence the identity here.
* Clipboard calls may fail: `pyperclip.copy` failure inside `delete_todo` is
  an uncaught exception, modelled by the `copyOk : Bool` argument and a Bool
  result flag recording that the exception escaped; `pyperclip.paste` is an
  `Except String String` argument (`.error` = `PyperclipException`, caught by
  `paste_todo` itself).
* Saving to the JSON file is modelled as recording the saved forest in the
  `file` field (an I/O failure only changes the status message, which no
  claim depends on).
* The `current_line` attribute is only ever created by `add_todo`; it is
  modelled as an `Option Nat`, `none` meaning the attribute does not exist,
  so that reading it in `enter_visual_mode` raises `AttributeError`
  (modelled as a Bool "raised" result flag).
-/

/-- A task: `{"text": string, "completed": bool, "children": [...]}`. -/
inductive Todo : Type where
  | mk (text : String) (completed : Bool) (children : List Todo) : Todo

def Todo.text : Todo → String
  | .mk s _ _ => s

def Todo.completed : Todo → Bool
  | .mk _ c _ => c

def Todo.children : Todo → List Todo
  | .mk _ _ cs => cs

/-- `l.modify`-style point update; out-of-range indices leave the list
unchanged (the Python code never reaches an out-of-range index here, because
it only mutates through an object previously obtained by a successful
lookup). -/
def listModify (f : α → α) : List α → Nat → List α
  | [], _ => []
  | a :: as, 0 => f a :: as
  | a :: as, n + 1 => a :: listModify f as n

/-- `del l[n]`. -/
def listErase : List α → Nat → List α
  | [], _ => []
  | _ :: as, 0 => as
  | a :: as, n + 1 => a :: listErase as n

/-- Python `list.index` (first index holding an equal element), returning
`none` instead of raising `ValueError`. -/
def idxOf? [DecidableEq α] : List α → α → Option Nat
  | [], _ => none
  | x :: xs, a => if x = a then some 0 else (idxOf? xs a).map (· + 1)

/-- Python `list.insert(n, a)`: clamps `n` to the list length. -/
def pyInsert (l : List α) (n : Nat) (a : α) : List α :=
  l.take n ++ a :: l.drop n

/-- Characters stripped by Python's `str.strip()` (the ASCII ones; the claims
only involve ASCII whitespace). -/
def isPySpace (c : Char) : Bool :=
  c == ' ' || c == '\t' || c == '\n' || c == '\r' || c == '\x0B' || c == '\x0C'

/-- Python `str.strip()`. -/
def py_strip (s : String) : String :=
  String.mk (((s.data.dropWhile isPySpace).reverse.dropWhile isPySpace).reverse)

/-- Python `str.splitlines()` over the character list: splits at `\r\n`,
`\n` or `\r`, with no trailing empty line for a trailing newline. -/
def splitlinesAux : List Char → List Char → List (List Char)
  | [], acc => if acc.isEmpty then [] else [acc]
  | '\r' :: '\n' :: rest, acc => acc :: splitlinesAux rest []
  | '\n' :: rest, acc => acc :: splitlinesAux rest []
  | '\r' :: rest, acc => acc :: splitlinesAux rest []
  | c :: rest, acc => splitlinesAux rest (acc ++ [c])

def splitlines (s : String) : List String :=
  (splitlinesAux s.data []).map String.mk

/-- `TodoApp.get_todo_by_path`: descend one child index per path segment,
`none` if any segment is out of bounds (the Python loop returns its local
`todo`, which is `None` for the empty path). -/
def get_todo_by_path : List Todo → List Nat → Option Todo
  | _, [] => none
  | ts, [i] => ts.get? i
  | ts, i :: j :: p =>
    match ts.get? i with
    | none => none
    | some t => get_todo_by_path t.children (j :: p)

/-- The recursion of `get_flattened_paths`: `recurse(todos, prefix)` emits
`prefix + [idx]` for each todo and recurses into its children.  The source
guards the recursion by `if todo.get("children"):`; recursing into an empty
list emits nothing, so the guard is dropped. -/
def flattenAux : List Nat → Nat → List Todo → List (List Nat)
  | _, _, [] => []
  | pre, i, t :: ts =>
    (pre ++ [i]) :: (flattenAux (pre ++ [i]) 0 t.children ++ flattenAux pre (i + 1) ts)
termination_by pre i ts => sizeOf ts
decreasing_by
  · cases t with | mk s c cs => simp [Todo.children]; omega
  · simp

/-- `TodoApp.get_flattened_paths`. -/
def get_flattened_paths (ts : List Todo) : List (List Nat) :=
  flattenAux [] 0 ts

/-- Total number of tasks in a forest (every task at every depth). -/
def count_tasks : List Todo → Nat
  | [] => 0
  | t :: ts => 1 + count_tasks t.children + count_tasks ts
termination_by ts => sizeOf ts
decreasing_by
  · cases t with | mk s c cs => simp [Todo.children]; omega
  · simp

/-- Functional form of an in-place mutation of the task object at a path:
apply `f` to the task the path addresses; an invalid path changes nothing. -/
def modify_at (f : Todo → Todo) : List Todo → List Nat → List Todo
  | ts, [] => ts
  | ts, [i] => listModify f ts i
  | ts, i :: j :: p =>
    listModify (fun t => Todo.mk t.text t.completed (modify_at f t.children (j :: p))) ts i

/-- The tree part of `TodoApp.delete_todo`: `del self.todos[path[0]]` for a
depth-0 path, else `del parent["children"][path[-1]]` through the parent
object (guarded by the parent lookup succeeding, as in the source). -/
def delete_step (ts : List Todo) (p : List Nat) : List Todo :=
  if p.length == 1 then listErase ts (p.headD 0)
  else
    match get_todo_by_path ts p.dropLast with
    | none => ts
    | some _ =>
      modify_at (fun t => Todo.mk t.text t.completed (listErase t.children (p.getLastD 0)))
        ts p.dropLast

/-- The insertion loop of `paste_todo`: insert the lines one by one as new
sibling tasks at positions `at0`, `at0 + 1`, .... -/
def insert_lines : List Todo → Nat → List String → List Todo
  | ts, _, [] => ts
  | ts, n, s :: ss => insert_lines (pyInsert ts n (Todo.mk s false [])) (n + 1) ss

/-! ### A prefix predicate on paths -/

/-- `p` is an initial segment of `q`. -/
def isPfx (p q : List α) : Prop := ∃ r, p ++ r = q

/-- `p` addresses a strict ancestor of the task addressed by `q`. -/
def path_is_ancestor (p q : List Nat) : Prop := ∃ r, r ≠ [] ∧ p ++ r = q

/-- Add `n` to the first coordinate of a path (used to normalise the
flattening of a forest tail). -/
def shiftHead (n : Nat) : List Nat → List Nat
  | [] => []
  | h :: t => (n + h) :: t

/-- The mutable state of a `TodoApp` instance (plus the modelled file). -/
structure AppState where
  todos : List Todo
  current_path : List Nat
  mode : String
  command_buffer : String
  message : String
  visual_start : Option Nat
  visual_end : Option Nat
  undo_stack : List (List Todo)
  redo_stack : List (List Todo)
  current_line : Option Nat
  file : Option (List Todo)

/-- `TodoApp.__init__` after `load_todos` read `ts` from the file. -/
def init_state (ts : List Todo) : AppState :=
  { todos := ts, current_path := [0], mode := "normal", command_buffer := "",
    message := "", visual_start := none, visual_end := none,
    undo_stack := [], redo_stack := [], current_line := none, file := some ts }

/-- `TodoApp.save_todos` (the write is modelled as always succeeding; a
failure would only change the message, which no claim depends on). -/
def save_todos (st : AppState) : AppState :=
  { st with file := some st.todos, message := "Saved!" }

/-- `TodoApp.push_undo`. -/
def push_undo (st : AppState) : AppState :=
  { st with undo_stack := st.todos :: st.undo_stack }

/-- `TodoApp.push_redo`. -/
def push_redo (st : AppState) : AppState :=
  { st with redo_stack := st.todos :: st.redo_stack }

/-- `TodoApp.undo`. -/
def undo (st : AppState) : AppState :=
  match h : st.undo_stack with
  | [] => { st with message := "Nothing to undo!" }
  | prev :: rest =>
    let st1 : AppState :=
      { (push_redo st) with todos := prev, undo_stack := rest }
    let flat := get_flattened_paths st1.todos
    { st1 with
      current_path := if flat.isEmpty then [0] else flat.getD (min (flat.length - 1) 0) [],
      message := "Undo performed!" }

/-- `TodoApp.redo`. -/
def redo (st : AppState) : AppState :=
  match h : st.redo_stack with
  | [] => { st with message := "Nothing to redo!" }
  | nxt :: rest =>
    let st1 : AppState :=
      { (push_undo st) with todos := nxt, redo_stack := rest }
    let flat := get_flattened_paths st1.todos
    { st1 with
      current_path := if flat.isEmpty then [0] else flat.getD (min (flat.length - 1) 0) [],
      message := "Redo performed!" }

/-- `TodoApp.add_todo`: push undo, clear redo, append a root task, save, and
set the (vestigial) `current_line` attribute. -/
def add_todo (st : AppState) (text : String) : AppState :=
  let st1 := { (push_undo st) with redo_stack := ([] : List (List Todo)) }
  let st2 := { st1 with todos := st1.todos ++ [Todo.mk text false []] }
  let st3 := save_todos st2
  { st3 with current_line := some (st3.todos.length - 1) }

/-- `TodoApp.edit_todo`: a no-op when the cursor path resolves to no task. -/
def edit_todo (st : AppState) (text : String) : AppState :=
  match get_todo_by_path st.todos st.current_path with
  | none => st
  | some _ =>
    let st1 := { (push_undo st) with redo_stack := ([] : List (List Todo)) }
    let st2 := { st1 with
      todos := modify_at (fun t => Todo.mk text t.completed t.children) st1.todos st1.current_path }
    { (save_todos st2) with message := "Todo edited!" }

/-- `TodoApp.toggle_todo`: a no-op when the cursor path resolves to no task. -/
def toggle_todo (st : AppState) : AppState :=
  match get_todo_by_path st.todos st.current_path with
  | none => st
  | some _ =>
    let st1 := { (push_undo st) with redo_stack := ([] : List (List Todo)) }
    let st2 := { st1 with
      todos := modify_at (fun t => Todo.mk t.text (!t.completed) t.children) st1.todos st1.current_path }
    save_todos st2

/-- `TodoApp.delete_todo`.  `copyOk` is the outcome of `pyperclip.copy`; the
returned Bool records that the uncaught `PyperclipException` escaped (the
statements after the copy never ran). -/
def delete_todo (st : AppState) (copyOk : Bool) : AppState × Bool :=
  let flat := get_flattened_paths st.todos
  match idxOf? flat st.current_path with
  | none => ({ st with message := "No todo selected." }, false)
  | some idx =>
    let path := flat.getD idx []
    match get_todo_by_path st.todos path with
    | none => (st, false)
    | some _ =>
      let st1 := { (push_undo st) with redo_stack := ([] : List (List Todo)) }
      if copyOk then
        let st2 := { st1 with todos := delete_step st1.todos path }
        let st3 := save_todos st2
        let flat2 := get_flattened_paths st3.todos
        ({ st3 with
            current_path := if flat2.isEmpty then [0] else flat2.getD (idx - 1) [],
            message := "Todo deleted and copied to clipboard!" }, false)
      else
        (st1, true)

/-- `TodoApp.paste_todo`.  `clip` is the outcome of `pyperclip.paste()`. -/
def paste_todo (st : AppState) (clip : Except String String) : AppState :=
  match clip with
  | .error e => { st with message := "Error accessing clipboard: " ++ e }
  | .ok content =>
    if py_strip content ≠ "" then
      let st1 := { (push_undo st) with redo_stack := ([] : List (List Todo)) }
      let lines := splitlines content
      let flat := get_flattened_paths st1.todos
      let idxI : Int :=
        match idxOf? flat st1.current_path with
        | some i => (i : Int)
        | none => -1
      let path := if idxI == -1 then [0] else flat.getD idxI.toNat []
      let st2 :=
        if path.length == 1 then
          { st1 with todos := insert_lines st1.todos (path.headD 0 + 1) lines }
        else
          match get_todo_by_path st1.todos path.dropLast with
          | none => st1
          | some _ =>
            { st1 with todos := (modify_at
                (fun t => Todo.mk t.text t.completed
                  (insert_lines t.children (path.getLastD 0 + 1) lines)) st1.todos path.dropLast) }
      let st3 := { (save_todos st2) with
        message := "Pasted " ++ toString lines.length ++ " todos from clipboard!" }
      let flat2 := get_flattened_paths st3.todos
      if flat2.isEmpty then st3
      else { st3 with
        current_path := flat2.getD (min ((flat2.length : Int) - 1) (idxI + lines.length)).toNat [] }
    else { st with message := "Clipboard is empty!" }

/-- `TodoApp.add_subtask`: note that the undo push and the redo clear happen
before the parent lookup is validated. -/
def add_subtask (st : AppState) (text : String) : AppState :=
  let st1 := { (push_undo st) with redo_stack := ([] : List (List Todo)) }
  match get_todo_by_path st1.todos st1.current_path with
  | none => { st1 with message := "No parent todo selected." }
  | some parent =>
    let newLen := parent.children.length + 1
    let st2 := { st1 with todos := (modify_at
        (fun t => Todo.mk t.text t.completed (t.children ++ [Todo.mk text false []]))
        st1.todos st1.current_path) }
    let st3 := save_todos st2
    { st3 with current_path := st3.current_path ++ [newLen - 1], message := "Subtask added!" }

/-- `TodoApp.enter_visual_mode`: sets the mode, then reads the
`current_line` attribute (raising `AttributeError` when `add_todo` never
created it — the Bool records the escaped exception). -/
def enter_visual_mode (st : AppState) : AppState × Bool :=
  let st1 := { st with mode := "visual" }
  match st1.current_line with
  | none => (st1, true)
  | some n =>
    ({ st1 with visual_start := some n, visual_end := some n, message := "Visual mode" }, false)

/-! ### Sequences of mutating operations -/

/-- One mutating `TodoApp` call, together with the outcome of the external
clipboard collaborator where the call consults it. -/
inductive Op : Type where
  | add (text : String)
  | edit (text : String)
  | toggle
  | delete (copyOk : Bool)
  | subtask (text : String)
  | paste (clip : Except String String)

def apply_op (st : AppState) : Op → AppState
  | .add text => add_todo st text
  | .edit text => edit_todo st text
  | .toggle => toggle_todo st
  | .delete ok => (delete_todo st ok).1
  | .subtask text => add_subtask st text
  | .paste clip => paste_todo st clip

def run_ops (st : AppState) (ops : List Op) : AppState :=
  ops.foldl apply_op st

/-- `undo` applied `n` times. -/
def undoN : Nat → AppState → AppState
  | 0, st => st
  | n + 1, st => undoN n (undo st)

/-- `undo` applied repeatedly until the undo stack is empty. -/
def undoAll (st : AppState) : AppState :=
  undoN st.undo_stack.length st

/-- The undo-history invariant: the bottom of the undo stack (or, if the
stack is empty, the live forest) is the pre-history forest `s0`. -/
def hist_inv (s0 : List Todo) (st : AppState) : Prop :=
  (st.undo_stack.getLast?).getD st.todos = s0

/-! ### Generic list lemmas for the helpers above -/

theorem Todo.eta (t : Todo) : Todo.mk t.text t.completed t.children = t := by
  cases t; rfl

theorem Todo.text_mk (s : String) (c : Bool) (cs : List Todo) : (Todo.mk s c cs).text = s := rfl

theorem Todo.completed_mk (s : String) (c : Bool) (cs : List Todo) :
    (Todo.mk s c cs).completed = c := rfl

theorem Todo.children_mk (s : String) (c : Bool) (cs : List Todo) :
    (Todo.mk s c cs).children = cs := rfl

theorem Todo.sizeOf_children_lt (t : Todo) : sizeOf t.children < sizeOf t := by
  cases t with
  | mk s c cs => simp [Todo.children]

theorem listModify_oob (f : α → α) : ∀ (ts : List α) (j : Nat), ts.get? j = none →
    listModify f ts j = ts := by
  intro ts
  induction ts with
  | nil => intro j _; rfl
  | cons a as ih =>
    intro j h
    cases j with
    | zero => simp [List.get?] at h
    | succ n => simp only [List.get?] at h; simp [listModify, ih n h]

theorem listModify_congr (f g : α → α) : ∀ (ts : List α) (j : Nat) (t : α),
    ts.get? j = some t → f t = g t → listModify f ts j = listModify g ts j := by
  intro ts
  induction ts with
  | nil => intro j t h; simp [List.get?] at h
  | cons a as ih =>
    intro j t h hfg
    cases j with
    | zero => simp [List.get?] at h; subst h; simp [listModify, hfg]
    | succ n => simp only [List.get?] at h; simp [listModify, ih n t h hfg]

theorem listModify_id (f : α → α) : ∀ (ts : List α) (j : Nat) (t : α),
    ts.get? j = some t → f t = t → listModify f ts j = ts := by
  intro ts
  induction ts with
  | nil => intro j t h; simp [List.get?] at h
  | cons a as ih =>
    intro j t h hf
    cases j with
    | zero => simp [List.get?] at h; subst h; simp [listModify, hf]
    | succ n => simp only [List.get?] at h; simp [listModify, ih n t h hf]

theorem listModify_get?_same (f : α → α) : ∀ (ts : List α) (j : Nat),
    (listModify f ts j).get? j = (ts.get? j).map f := by
  intro ts
  induction ts with
  | nil => intro j; simp [listModify]
  | cons a as ih =>
    intro j
    cases j with
    | zero => simp [listModify]
    | succ n => simpa [listModify] using ih n

theorem idxOf?_lt_length [DecidableEq α] : ∀ (l : List α) (a : α) (i : Nat),
    idxOf? l a = some i → i < l.length := by
  intro l
  induction l with
  | nil => intro a i h; simp [idxOf?] at h
  | cons x xs ih =>
    intro a i h
    by_cases hx : x = a
    · simp [idxOf?, hx] at h
      simp [← h]
    · simp only [idxOf?, if_neg hx, Option.map_eq_some'] at h
      obtain ⟨i', hi', rfl⟩ := h
      have := ih a i' hi'
      simp only [List.length_cons]
      omega

theorem idxOf?_getD [DecidableEq α] : ∀ (l : List α) (a d : α) (i : Nat),
    idxOf? l a = some i → l.getD i d = a := by
  intro l
  induction l with
  | nil => intro a d i h; simp [idxOf?] at h
  | cons x xs ih =>
    intro a d i h
    by_cases hx : x = a
    · simp [idxOf?, hx] at h; subst h; simpa using hx
    · simp only [idxOf?, if_neg hx, Option.map_eq_some'] at h
      obtain ⟨i', hi', rfl⟩ := h
      simpa using ih a d i' hi'

theorem idxOf?_mem [DecidableEq α] : ∀ (l : List α) (a : α) (i : Nat),
    idxOf? l a = some i → a ∈ l := by
  intro l
  induction l with
  | nil => intro a i h; simp [idxOf?] at h
  | cons x xs ih =>
    intro a i h
    by_cases hx : x = a
    · subst hx; simp
    · simp only [idxOf?, if_neg hx, Option.map_eq_some'] at h
      obtain ⟨i', hi', rfl⟩ := h
      exact List.mem_cons_of_mem x (ih a i' hi')

theorem idxOf?_append [DecidableEq α] : ∀ (l₁ l₂ : List α) (a : α),
    idxOf? (l₁ ++ l₂) a =
      (match idxOf? l₁ a with
       | some i => some i
       | none => (idxOf? l₂ a).map (· + l₁.length)) := by
  intro l₁
  induction l₁ with
  | nil => intro l₂ a; simp [idxOf?]
  | cons x xs ih =>
    intro l₂ a
    by_cases hx : x = a
    · simp [idxOf?, hx]
    · rw [List.cons_append,
        show idxOf? (x :: (xs ++ l₂)) a = (idxOf? (xs ++ l₂) a).map (· + 1) from by
          rw [idxOf?, if_neg hx],
        show idxOf? (x :: xs) a = (idxOf? xs a).map (· + 1) from by
          rw [idxOf?, if_neg hx],
        ih l₂ a]
      cases hxs : idxOf? xs a with
      | some i => simp
      | none =>
        cases hl2 : idxOf? l₂ a with
        | some i =>
          simp only [hxs, hl2, Option.map_some', Option.map_none', List.length_cons]
          simp [Nat.add_assoc]
        | none => simp

theorem idxOf?_eq_none [DecidableEq α] : ∀ (l : List α) (a : α),
    (∀ x ∈ l, x ≠ a) → idxOf? l a = none := by
  intro l
  induction l with
  | nil => intro a _; rfl
  | cons x xs ih =>
    intro a h
    have hx : x ≠ a := h x (by simp)
    simp [idxOf?, hx, ih a (fun y hy => h y (by simp [hy]))]

theorem idxOf?_map_inj [DecidableEq α] [DecidableEq β] (f : α → β) :
    ∀ (l : List α) (a : α), (∀ x ∈ l, (f x = f a ↔ x = a)) →
    idxOf? (l.map f) (f a) = idxOf? l a := by
  intro l
  induction l with
  | nil => intro a _; rfl
  | cons x xs ih =>
    intro a h
    have hx := h x (by simp)
    by_cases hxa : x = a
    · subst hxa; simp [idxOf?]
    · have hfx : f x ≠ f a := fun hc => hxa (hx.mp hc)
      simp [idxOf?, hxa, hfx, ih a (fun y hy => h y (by simp [hy]))]

theorem isPfx_length_le (p q : List α) (h : isPfx p q) : p.length ≤ q.length := by
  obtain ⟨r, rfl⟩ := h; simp

theorem isPfx_cons (a : α) (p q : List α) (h : isPfx p q) : isPfx (a :: p) (a :: q) := by
  obtain ⟨r, rfl⟩ := h; exact ⟨r, rfl⟩

theorem isPfx_append_left (z p q : List α) (h : isPfx p q) : isPfx (z ++ p) (z ++ q) := by
  obtain ⟨r, rfl⟩ := h; exact ⟨r, by simp⟩

theorem isPfx_cancel (z p q : List α) (h : isPfx (z ++ p) (z ++ q)) : isPfx p q := by
  obtain ⟨r, hr⟩ := h
  exact ⟨r, by simpa using hr⟩

theorem isPfx_map (f : α → β) (p q : List α) (h : isPfx p q) :
    isPfx (p.map f) (q.map f) := by
  obtain ⟨r, rfl⟩ := h; exact ⟨r.map f, by simp⟩

theorem isPfx_extend (p q r : List α) (h : isPfx p q) : isPfx p (q ++ r) := by
  obtain ⟨s, rfl⟩ := h; exact ⟨s ++ r, by simp⟩

theorem isPfx_take (l : List α) (n : Nat) : isPfx (l.take n) l :=
  ⟨l.drop n, List.take_append_drop n l⟩

theorem isPfx_cons_inv (a b : α) (p q : List α) (h : isPfx (a :: p) (b :: q)) :
    a = b ∧ isPfx p q := by
  obtain ⟨r, hr⟩ := h
  simp only [List.cons_append, List.cons.injEq] at hr
  exact ⟨hr.1, r, hr.2⟩

/-! ### Structural induction over a task forest -/

theorem forest_ind (P : List Todo → Prop) (h0 : P [])
    (h1 : ∀ t ts, P t.children → P ts → P (t :: ts)) : ∀ ts, P ts
  | [] => h0
  | t :: ts => h1 t ts (forest_ind P h0 h1 t.children) (forest_ind P h0 h1 ts)
termination_by ts => sizeOf ts
decreasing_by
  · have := Todo.sizeOf_children_lt t; simp; omega
  · simp

/-! ### Structure of the flattening -/

theorem flattenAux_nil (pre : List Nat) (i : Nat) : flattenAux pre i [] = [] := by
  simp [flattenAux]

theorem flattenAux_cons (pre : List Nat) (i : Nat) (t : Todo) (ts : List Todo) :
    flattenAux pre i (t :: ts) =
      (pre ++ [i]) :: (flattenAux (pre ++ [i]) 0 t.children ++ flattenAux pre (i + 1) ts) := by
  simp [flattenAux]

/-- Normal form: a flattening with accumulator `pre` and start index `i` is
the plain flattening with `pre` prepended and the head coordinate shifted. -/
theorem flattenAux_eq_map (ts : List Todo) : ∀ (pre : List Nat) (i : Nat),
    flattenAux pre i ts = (flattenAux [] 0 ts).map (fun q => pre ++ shiftHead i q) := by
  induction ts using forest_ind with
  | h0 => intro pre i; simp [flattenAux_nil]
  | h1 t ts ih1 ih2 =>
    intro pre i
    rw [flattenAux_cons, flattenAux_cons, ih1 (pre ++ [i]) 0, ih1 ([] ++ [0]) 0,
      ih2 pre (i + 1), ih2 [] (0 + 1)]
    simp only [List.map_cons, List.map_append, List.map_map, List.nil_append]
    congr 1
    congr 1
    · apply List.map_congr_left
      intro q _
      cases q with
      | nil => simp [Function.comp, shiftHead]
      | cons h tl => simp [Function.comp, shiftHead, List.append_assoc]
    · apply List.map_congr_left
      intro q _
      cases q with
      | nil => simp [Function.comp, shiftHead]
      | cons h tl => simp [Function.comp, shiftHead, Nat.add_assoc]

/-- Every flattened path extends the accumulator by an in-range coordinate. -/
theorem flattenAux_mem_shape (ts : List Todo) : ∀ (pre : List Nat) (i : Nat) (q : List Nat),
    q ∈ flattenAux pre i ts → ∃ k s, k < ts.length ∧ q = pre ++ (i + k) :: s := by
  induction ts using forest_ind with
  | h0 => intro pre i q h; rw [flattenAux_nil] at h; simp at h
  | h1 t ts ih1 ih2 =>
    intro pre i q h
    rw [flattenAux_cons] at h
    rcases List.mem_cons.mp h with h | h
    · exact ⟨0, [], by simp, by simp [h]⟩
    rcases List.mem_append.mp h with h | h
    · obtain ⟨k, s, hk, rfl⟩ := ih1 (pre ++ [i]) 0 q h
      exact ⟨0, (0 + k) :: s, by simp, by simp⟩
    · obtain ⟨k, s, hk, rfl⟩ := ih2 pre (i + 1) q h
      refine ⟨k + 1, s, by simpa using hk, ?_⟩
      rw [show i + (k + 1) = i + 1 + k from by omega]

/-- No flattened path is empty. -/
theorem flattenAux_ne_nil (ts : List Todo) (pre : List Nat) (i : Nat) (q : List Nat)
    (h : q ∈ flattenAux pre i ts) : q ≠ [] := by
  obtain ⟨k, s, _, rfl⟩ := flattenAux_mem_shape ts pre i q h
  simp

/-- The flattening enumerates one path per task. -/
theorem flattenAux_length (ts : List Todo) : ∀ (pre : List Nat) (i : Nat),
    (flattenAux pre i ts).length = count_tasks ts := by
  induction ts using forest_ind with
  | h0 => intro pre i; rw [flattenAux_nil]; simp [count_tasks]
  | h1 t ts ih1 ih2 =>
    intro pre i
    rw [flattenAux_cons]
    show (flattenAux (pre ++ [i]) 0 t.children ++ flattenAux pre (i + 1) ts).length + 1
      = count_tasks (t :: ts)
    rw [List.length_append, ih1 (pre ++ [i]) 0, ih2 pre (i + 1)]
    show count_tasks t.children + count_tasks ts + 1
      = count_tasks (t :: ts)
    rw [show count_tasks (t :: ts) = 1 + count_tasks t.children + count_tasks ts from by
      simp [count_tasks]]
    omega

theorem get_cons_shift (t : Todo) (ts : List Todo) (h0 : Nat) (t0 : List Nat) :
    get_todo_by_path (t :: ts) ((h0 + 1) :: t0) = get_todo_by_path ts (h0 :: t0) := by
  cases t0 with
  | nil => simp [get_todo_by_path]
  | cons x xs => simp [get_todo_by_path]

/-- Every path produced by the flattening addresses a task. -/
theorem get_of_mem_flat (ts : List Todo) : ∀ (q : List Nat),
    q ∈ get_flattened_paths ts → (get_todo_by_path ts q).isSome := by
  induction ts using forest_ind with
  | h0 => intro q h; rw [get_flattened_paths, flattenAux_nil] at h; simp at h
  | h1 t ts ih1 ih2 =>
    intro q h
    rw [get_flattened_paths, flattenAux_cons] at h
    rcases List.mem_cons.mp h with rfl | h
    · simp [get_todo_by_path]
    rcases List.mem_append.mp h with h | h
    · rw [flattenAux_eq_map] at h
      obtain ⟨q', hq', rfl⟩ := List.mem_map.mp h
      have hne := flattenAux_ne_nil _ _ _ _ hq'
      cases q' with
      | nil => exact absurd rfl hne
      | cons h0 t0 =>
        have hg := ih1 (h0 :: t0) hq'
        simpa [get_todo_by_path, shiftHead] using hg
    · rw [flattenAux_eq_map] at h
      obtain ⟨q', hq', rfl⟩ := List.mem_map.mp h
      have hne := flattenAux_ne_nil _ _ _ _ hq'
      cases q' with
      | nil => exact absurd rfl hne
      | cons h0 t0 =>
        have hg := ih2 (h0 :: t0) hq'
        have : ([] : List Nat) ++ shiftHead 1 (h0 :: t0) = (h0 + 1) :: t0 := by
          simp [shiftHead]; omega
        rw [this, get_cons_shift]
        exact hg

/-- Pre-order: the flattened position of a task precedes the flattened
position of any of its descendants. -/
theorem flattenAux_ancestor_lt (ts : List Todo) : ∀ (pre : List Nat) (i0 : Nat)
    (a b : Nat) (pa pb : List Nat),
    (flattenAux pre i0 ts)[a]? = some pa →
    (flattenAux pre i0 ts)[b]? = some pb →
    path_is_ancestor pa pb → a < b := by
  induction ts using forest_ind with
  | h0 =>
    intro pre i0 a b pa pb ha _ _
    rw [flattenAux_nil] at ha; simp at ha
  | h1 t ts ih1 ih2 =>
    intro pre i0 a b pa pb ha hb hanc
    obtain ⟨r, hrne, hr⟩ := hanc
    rw [flattenAux_cons] at ha hb
    cases b with
    | zero =>
      rw [List.getElem?_cons_zero] at hb
      injection hb with hb
      exfalso
      cases a with
      | zero =>
        rw [List.getElem?_cons_zero] at ha
        injection ha with ha
        subst ha; subst hb
        have hlen := congrArg List.length hr
        rw [List.length_append] at hlen
        have : r.length = 0 := by omega
        exact hrne (List.eq_nil_of_length_eq_zero this)
      | succ n =>
        rw [List.getElem?_cons_succ] at ha
        have hmem := List.getElem?_mem ha
        subst hb
        rcases List.mem_append.mp hmem with hm | hm
        · obtain ⟨k, s, hk, hshape⟩ := flattenAux_mem_shape _ _ _ _ hm
          have hlen : pa.length ≤ (pre ++ [i0]).length := by
            rw [← hr]; simp
          subst hshape
          simp only [List.length_append, List.length_cons, List.length_singleton] at hlen
          omega
        · obtain ⟨k, s, hk, hshape⟩ := flattenAux_mem_shape _ _ _ _ hm
          subst hshape
          rw [List.append_assoc] at hr
          have hc := List.append_cancel_left hr
          rw [List.cons_append] at hc
          injection hc with hc1 hc2
          omega
    | succ m =>
      cases a with
      | zero => omega
      | succ n =>
        rw [List.getElem?_cons_succ] at ha hb
        have hsplit : ∀ (x : Nat) (px : List Nat),
            (flattenAux (pre ++ [i0]) 0 t.children ++ flattenAux pre (i0 + 1) ts)[x]? = some px →
            (x < (flattenAux (pre ++ [i0]) 0 t.children).length ∧
              (flattenAux (pre ++ [i0]) 0 t.children)[x]? = some px) ∨
            ((flattenAux (pre ++ [i0]) 0 t.children).length ≤ x ∧
              (flattenAux pre (i0 + 1) ts)[x - (flattenAux (pre ++ [i0]) 0 t.children).length]? = some px) := by
          intro x px hx
          by_cases hlt : x < (flattenAux (pre ++ [i0]) 0 t.children).length
          · exact Or.inl ⟨hlt, by rwa [List.getElem?_append_left hlt] at hx⟩
          · exact Or.inr ⟨by omega, by rwa [List.getElem?_append_right (by omega)] at hx⟩
        rcases hsplit n pa ha with ⟨hn, han⟩ | ⟨hn, han⟩
        · rcases hsplit m pb hb with ⟨hm, hbm⟩ | ⟨hm, hbm⟩
          · have := ih1 (pre ++ [i0]) 0 n m pa pb han hbm ⟨r, hrne, hr⟩
            omega
          · omega
        · rcases hsplit m pb hb with ⟨hm, hbm⟩ | ⟨hm, hbm⟩
          · exfalso
            obtain ⟨k, s, hk, hsa⟩ := flattenAux_mem_shape _ _ _ _ (List.getElem?_mem han)
            obtain ⟨k', s', hk', hsb⟩ := flattenAux_mem_shape _ _ _ _ (List.getElem?_mem hbm)
            subst hsa; subst hsb
            rw [List.append_assoc, List.append_assoc] at hr
            have hc := List.append_cancel_left hr
            rw [List.cons_append, List.singleton_append] at hc
            injection hc with hc1 hc2
            omega
          · have := ih2 pre (i0 + 1) _ _ pa pb han hbm ⟨r, hrne, hr⟩
            omega

/-- C1: for every forest, `flatten()` returns the pre-order depth-first
sequence of paths: its length equals the total number of tasks in the
forest, and whenever the task at path `pa` is an ancestor of the task at
path `pb`, `pa` occurs strictly earlier in the sequence than `pb`. -/
theorem C1_flatten_preorder (ts : List Todo) :
    (get_flattened_paths ts).length = count_tasks ts ∧
    ∀ (a b : Nat) (pa pb : List Nat),
      (get_flattened_paths ts)[a]? = some pa →
      (get_flattened_paths ts)[b]? = some pb →
      path_is_ancestor pa pb → a < b := by
  refine ⟨flattenAux_length ts [] 0, ?_⟩
  intro a b pa pb ha hb hanc
  exact flattenAux_ancestor_lt ts [] 0 a b pa pb ha hb hanc

/-- Witness for C1 on the forest `[A [B]]`: two tasks, and the parent's path
`[0]` precedes the child's path `[0,0]`. -/
theorem C1_flatten_preorder_witness :
    (get_flattened_paths [Todo.mk "A" false [Todo.mk "B" false []]]).length =
      count_tasks [Todo.mk "A" false [Todo.mk "B" false []]] ∧ 0 < 1 :=
  ⟨(C1_flatten_preorder [Todo.mk "A" false [Todo.mk "B" false []]]).1,
    (C1_flatten_preorder [Todo.mk "A" false [Todo.mk "B" false []]]).2 0 1 [0] [0, 0]
      (by simp [get_flattened_paths, flattenAux_cons, flattenAux_nil, Todo.children])
      (by simp [get_flattened_paths, flattenAux_cons, flattenAux_nil, Todo.children])
      ⟨[0], by simp, rfl⟩⟩

/-! ### Stack shapes of the individual operations -/

theorem add_todo_stacks (st : AppState) (text : String) :
    (add_todo st text).undo_stack = st.todos :: st.undo_stack ∧
    (add_todo st text).redo_stack = [] ∧
    (add_todo st text).todos = st.todos ++ [Todo.mk text false []] := by
  simp [add_todo, push_undo, save_todos]

theorem edit_todo_none (st : AppState) (text : String)
    (h : get_todo_by_path st.todos st.current_path = none) : edit_todo st text = st := by
  simp [edit_todo, h]

theorem edit_todo_some_stacks (st : AppState) (text : String) (t : Todo)
    (h : get_todo_by_path st.todos st.current_path = some t) :
    (edit_todo st text).undo_stack = st.todos :: st.undo_stack ∧
    (edit_todo st text).redo_stack = [] := by
  simp [edit_todo, h, push_undo, save_todos]

theorem toggle_todo_none (st : AppState)
    (h : get_todo_by_path st.todos st.current_path = none) : toggle_todo st = st := by
  simp [toggle_todo, h]

theorem toggle_todo_some_stacks (st : AppState) (t : Todo)
    (h : get_todo_by_path st.todos st.current_path = some t) :
    (toggle_todo st).undo_stack = st.todos :: st.undo_stack ∧
    (toggle_todo st).redo_stack = [] := by
  simp [toggle_todo, h, push_undo, save_todos]

theorem add_subtask_stacks (st : AppState) (text : String) :
    (add_subtask st text).undo_stack = st.todos :: st.undo_stack ∧
    (add_subtask st text).redo_stack = [] := by
  rw [add_subtask]
  cases h : get_todo_by_path st.todos st.current_path with
  | none => simp [h, push_undo, save_todos]
  | some t => simp [h, push_undo, save_todos]

theorem delete_todo_no_idx (st : AppState) (ok : Bool)
    (h : idxOf? (get_flattened_paths st.todos) st.current_path = none) :
    delete_todo st ok = ({ st with message := "No todo selected." }, false) := by
  simp [delete_todo, h]

/-- Whenever `list.index` found the cursor, the looked-up path is the cursor
path itself and it addresses a task. -/
theorem delete_path_get (st : AppState) (i : Nat)
    (h : idxOf? (get_flattened_paths st.todos) st.current_path = some i) :
    (get_flattened_paths st.todos).getD i [] = st.current_path ∧
    (get_todo_by_path st.todos st.current_path).isSome := by
  refine ⟨idxOf?_getD _ _ _ _ h, ?_⟩
  exact get_of_mem_flat st.todos st.current_path (idxOf?_mem _ _ _ h)

theorem delete_todo_found_stacks (st : AppState) (ok : Bool) (i : Nat)
    (h : idxOf? (get_flattened_paths st.todos) st.current_path = some i) :
    (delete_todo st ok).1.undo_stack = st.todos :: st.undo_stack ∧
    (delete_todo st ok).1.redo_stack = [] := by
  obtain ⟨hpath, hget⟩ := delete_path_get st i h
  have hpath' : (get_flattened_paths st.todos)[i]?.getD [] = st.current_path := by
    simpa using hpath
  rw [delete_todo]
  cases hg : get_todo_by_path st.todos st.current_path with
  | none => rw [hg] at hget; simp at hget
  | some t =>
    cases ok with
    | true => simp [h, hpath', hg, push_undo, save_todos]
    | false => simp [h, hpath', hg, push_undo]

theorem paste_todo_error (st : AppState) (e : String) :
    paste_todo st (.error e) = { st with message := "Error accessing clipboard: " ++ e } := by
  simp [paste_todo]

theorem paste_todo_empty (st : AppState) (content : String)
    (h : py_strip content = "") :
    paste_todo st (.ok content) = { st with message := "Clipboard is empty!" } := by
  simp [paste_todo, h]

theorem paste_todo_main_stacks (st : AppState) (content : String)
    (h : py_strip content ≠ "") :
    (paste_todo st (.ok content)).undo_stack = st.todos :: st.undo_stack ∧
    (paste_todo st (.ok content)).redo_stack = [] := by
  rw [paste_todo, if_pos h]
  refine ⟨?_, ?_⟩ <;>
  · simp only [push_undo, save_todos]
    repeat' split
    all_goals simp

theorem undo_empty (st : AppState) (h : st.undo_stack = []) :
    undo st = { st with message := "Nothing to undo!" } := by
  rw [undo.eq_def]
  split
  · rfl
  · rename_i prev rest heq; rw [h] at heq; exact absurd heq (by simp)

theorem undo_cons (st : AppState) (prev : List Todo) (rest : List (List Todo))
    (h : st.undo_stack = prev :: rest) :
    (undo st).todos = prev ∧ (undo st).undo_stack = rest ∧
    (undo st).redo_stack = st.todos :: st.redo_stack := by
  rw [undo.eq_def]
  split
  · rename_i heq; rw [h] at heq; exact absurd heq (by simp)
  · rename_i prev' rest' heq
    rw [h] at heq
    injection heq with h1 h2
    subst h1; subst h2
    simp [push_redo]

theorem redo_empty (st : AppState) (h : st.redo_stack = []) :
    redo st = { st with message := "Nothing to redo!" } := by
  rw [redo.eq_def]
  split
  · rfl
  · rename_i nxt rest heq; rw [h] at heq; exact absurd heq (by simp)

theorem redo_cons (st : AppState) (nxt : List Todo) (rest : List (List Todo))
    (h : st.redo_stack = nxt :: rest) :
    (redo st).todos = nxt ∧ (redo st).redo_stack = rest ∧
    (redo st).undo_stack = st.todos :: st.undo_stack := by
  rw [redo.eq_def]
  split
  · rename_i heq; rw [h] at heq; exact absurd heq (by simp)
  · rename_i nxt' rest' heq
    rw [h] at heq
    injection heq with h1 h2
    subst h1; subst h2
    simp [push_undo]

/-! ### The history invariant and the undo-until-empty property -/

theorem getLastD_shift (t t' : List Todo) (u : List (List Todo)) :
    (((t :: u).getLast?).getD t') = ((u.getLast?).getD t) := by
  cases u with
  | nil => simp
  | cons x xs =>
    rw [List.getLast?_cons_cons]
    cases hl : (x :: xs).getLast? with
    | none => rw [List.getLast?_eq_none_iff] at hl; exact absurd hl (by simp)
    | some y => simp

/-- Every mutating call either leaves the forest and the undo stack alone,
or pushes the pre-call forest. -/
theorem apply_op_undo_shape (st : AppState) (op : Op) :
    ((apply_op st op).undo_stack = st.undo_stack ∧ (apply_op st op).todos = st.todos) ∨
    (apply_op st op).undo_stack = st.todos :: st.undo_stack := by
  cases op with
  | add text => exact Or.inr (add_todo_stacks st text).1
  | edit text =>
    cases hg : get_todo_by_path st.todos st.current_path with
    | none => exact Or.inl (by rw [apply_op, edit_todo_none st text hg]; exact ⟨rfl, rfl⟩)
    | some t => exact Or.inr (edit_todo_some_stacks st text t hg).1
  | toggle =>
    cases hg : get_todo_by_path st.todos st.current_path with
    | none => exact Or.inl (by rw [apply_op, toggle_todo_none st hg]; exact ⟨rfl, rfl⟩)
    | some t => exact Or.inr (toggle_todo_some_stacks st t hg).1
  | delete ok =>
    cases hidx : idxOf? (get_flattened_paths st.todos) st.current_path with
    | none => exact Or.inl (by rw [apply_op, delete_todo_no_idx st ok hidx]; exact ⟨rfl, rfl⟩)
    | some i => exact Or.inr (delete_todo_found_stacks st ok i hidx).1
  | subtask text => exact Or.inr (add_subtask_stacks st text).1
  | paste clip =>
    cases clip with
    | error e => exact Or.inl (by rw [apply_op, paste_todo_error]; exact ⟨rfl, rfl⟩)
    | ok content =>
      by_cases hc : py_strip content = ""
      · exact Or.inl (by rw [apply_op, paste_todo_empty st content hc]; exact ⟨rfl, rfl⟩)
      · exact Or.inr (paste_todo_main_stacks st content hc).1

theorem hist_inv_push (s0 : List Todo) (st : AppState) (h : hist_inv s0 st)
    (st' : AppState) (h' : st'.undo_stack = st.todos :: st.undo_stack) :
    hist_inv s0 st' := by
  unfold hist_inv at *
  rw [h', getLastD_shift]
  exact h

theorem apply_op_hist_inv (s0 : List Todo) (st : AppState) (op : Op)
    (h : hist_inv s0 st) : hist_inv s0 (apply_op st op) := by
  rcases apply_op_undo_shape st op with ⟨h1, h2⟩ | h1
  · unfold hist_inv at *; rw [h1, h2]; exact h
  · exact hist_inv_push s0 st h _ h1

theorem run_ops_hist_inv (s0 : List Todo) : ∀ (ops : List Op) (st : AppState),
    hist_inv s0 st → hist_inv s0 (run_ops st ops) := by
  intro ops
  induction ops with
  | nil => intro st h; exact h
  | cons op ops ih =>
    intro st h
    exact ih (apply_op st op) (apply_op_hist_inv s0 st op h)

theorem undoN_restores (s0 : List Todo) : ∀ (n : Nat) (st : AppState),
    st.undo_stack.length = n → hist_inv s0 st →
    (undoN n st).todos = s0 ∧ (undoN n st).undo_stack = [] := by
  intro n
  induction n with
  | zero =>
    intro st hlen hinv
    have hnil : st.undo_stack = [] := List.eq_nil_of_length_eq_zero hlen
    unfold hist_inv at hinv
    rw [hnil] at hinv
    simp at hinv
    exact ⟨hinv, hnil⟩
  | succ n ih =>
    intro st hlen hinv
    cases hstack : st.undo_stack with
    | nil => rw [hstack] at hlen; simp at hlen
    | cons prev rest =>
      obtain ⟨ht, hu, _⟩ := undo_cons st prev rest hstack
      have hlen' : (undo st).undo_stack.length = n := by
        rw [hu]; rw [hstack] at hlen; simpa using hlen
      have hinv' : hist_inv s0 (undo st) := by
        unfold hist_inv at *
        rw [hu, ht]
        rw [hstack, getLastD_shift] at hinv
        exact hinv
      exact ih (undo st) hlen' hinv'

/-- C2: undo and redo are exact inverses on the forest: after any sequence
of mutating operations from an initial forest, undoing until the undo stack
is empty restores the initial forest; and whenever an undo acted (the undo
stack was non-empty), an immediate redo restores the forest that held just
before that undo. -/
theorem C2_undo_redo_exact_inverse (s0 : List Todo) (ops : List Op) :
    ((undoAll (run_ops (init_state s0) ops)).todos = s0 ∧
      (undoAll (run_ops (init_state s0) ops)).undo_stack = []) ∧
    ∀ (st : AppState), st.undo_stack ≠ [] → (redo (undo st)).todos = st.todos := by
  constructor
  · have hinv0 : hist_inv s0 (init_state s0) := by
      unfold hist_inv init_state; simp
    have hinv := run_ops_hist_inv s0 ops (init_state s0) hinv0
    exact undoN_restores s0 _ _ rfl hinv
  · intro st hne
    cases hstack : st.undo_stack with
    | nil => exact absurd hstack hne
    | cons prev rest =>
      obtain ⟨_, _, hr⟩ := undo_cons st prev rest hstack
      exact (redo_cons (undo st) st.todos st.redo_stack hr).1

/-- Witness for C2: a concrete two-mutation run undoes back to the initial
forest, and a concrete undo-then-redo round trip preserves the forest. -/
theorem C2_undo_redo_exact_inverse_witness :
    ((undoAll (run_ops (init_state [Todo.mk "A" false []]) [Op.add "x", Op.toggle])).todos
        = [Todo.mk "A" false []] ∧
      (undoAll (run_ops (init_state [Todo.mk "A" false []]) [Op.add "x", Op.toggle])).undo_stack
        = []) ∧
    (redo (undo { init_state [] with undo_stack := [[Todo.mk "B" false []]] })).todos
      = ({ init_state [] with undo_stack := [[Todo.mk "B" false []]] } : AppState).todos :=
  ⟨(C2_undo_redo_exact_inverse [Todo.mk "A" false []] [Op.add "x", Op.toggle]).1,
    (C2_undo_redo_exact_inverse [] []).2
      { init_state [] with undo_stack := [[Todo.mk "B" false []]] }
      (by simp [init_state])⟩

/-- C3: every successful mutating call leaves the redo stack empty, while
`undo` and `redo` themselves never clear the opposite stack. -/
theorem C3_new_mutation_clears_redo (st : AppState) (text : String) (c : String) :
    (add_todo st text).redo_stack = [] ∧
    ((get_todo_by_path st.todos st.current_path).isSome = true →
      (edit_todo st text).redo_stack = []) ∧
    ((get_todo_by_path st.todos st.current_path).isSome = true →
      (toggle_todo st).redo_stack = []) ∧
    (∀ (i : Nat) (ok : Bool), idxOf? (get_flattened_paths st.todos) st.current_path = some i →
      (delete_todo st ok).1.redo_stack = []) ∧
    ((get_todo_by_path st.todos st.current_path).isSome = true →
      (add_subtask st text).redo_stack = []) ∧
    (py_strip c ≠ "" → (paste_todo st (.ok c)).redo_stack = []) ∧
    (st.redo_stack ≠ [] → (undo st).redo_stack ≠ []) ∧
    (st.undo_stack ≠ [] → (redo st).undo_stack ≠ []) := by
  refine ⟨(add_todo_stacks st text).2.1, ?_, ?_, ?_, ?_, ?_, ?_, ?_⟩
  · intro h
    obtain ⟨t, ht⟩ := Option.isSome_iff_exists.mp h
    exact (edit_todo_some_stacks st text t ht).2
  · intro h
    obtain ⟨t, ht⟩ := Option.isSome_iff_exists.mp h
    exact (toggle_todo_some_stacks st t ht).2
  · intro i ok hidx
    exact (delete_todo_found_stacks st ok i hidx).2
  · intro _
    exact (add_subtask_stacks st text).2
  · intro h
    exact (paste_todo_main_stacks st c h).2
  · intro h
    cases hstack : st.undo_stack with
    | nil => rw [undo_empty st hstack]; exact h
    | cons prev rest =>
      rw [(undo_cons st prev rest hstack).2.2]
      simp
  · intro h
    cases hstack : st.redo_stack with
    | nil => rw [redo_empty st hstack]; exact h
    | cons nxt rest =>
      rw [(redo_cons st nxt rest hstack).2.2]
      simp

/-- Witness for C3 at a concrete state with one root task, a non-empty redo
stack and a non-empty undo stack. -/
theorem C3_new_mutation_clears_redo_witness :
    (add_todo { init_state [Todo.mk "A" false []] with
        undo_stack := [[]], redo_stack := [[]] } "x").redo_stack = [] ∧
    (edit_todo { init_state [Todo.mk "A" false []] with
        undo_stack := [[]], redo_stack := [[]] } "x").redo_stack = [] ∧
    (toggle_todo { init_state [Todo.mk "A" false []] with
        undo_stack := [[]], redo_stack := [[]] }).redo_stack = [] ∧
    (delete_todo { init_state [Todo.mk "A" false []] with
        undo_stack := [[]], redo_stack := [[]] } true).1.redo_stack = [] ∧
    (add_subtask { init_state [Todo.mk "A" false []] with
        undo_stack := [[]], redo_stack := [[]] } "x").redo_stack = [] ∧
    (paste_todo { init_state [Todo.mk "A" false []] with
        undo_stack := [[]], redo_stack := [[]] } (.ok "X")).redo_stack = [] ∧
    (undo { init_state [Todo.mk "A" false []] with
        undo_stack := [[]], redo_stack := [[]] }).redo_stack ≠ [] ∧
    (redo { init_state [Todo.mk "A" false []] with
        undo_stack := [[]], redo_stack := [[]] }).undo_stack ≠ [] := by
  have h := C3_new_mutation_clears_redo
    { init_state [Todo.mk "A" false []] with undo_stack := [[]], redo_stack := [[]] } "x" "X"
  refine ⟨h.1, ?_, ?_, ?_, ?_, ?_, ?_, ?_⟩
  · exact h.2.1 (by simp [init_state, get_todo_by_path])
  · exact h.2.2.1 (by simp [init_state, get_todo_by_path])
  · exact h.2.2.2.1 0 true
      (by simp [init_state, get_flattened_paths, flattenAux_cons, flattenAux_nil,
        Todo.children, idxOf?])
  · exact h.2.2.2.2.1 (by simp [init_state, get_todo_by_path])
  · exact h.2.2.2.2.2.1 (by decide)
  · exact h.2.2.2.2.2.2.1 (by simp [init_state])
  · exact h.2.2.2.2.2.2.2 (by simp [init_state])

/-- C10: when the cursor path addresses no task, `edit_todo` and
`toggle_todo` are complete no-ops: the whole state — forest, undo stack,
redo stack, persisted file and message — is unchanged. -/
theorem C10_invalid_cursor_noop (st : AppState) (text : String)
    (h : get_todo_by_path st.todos st.current_path = none) :
    edit_todo st text = st ∧ toggle_todo st = st :=
  ⟨edit_todo_none st text h, toggle_todo_none st h⟩

/-- Witness for C10 on the empty forest (cursor `[0]` addresses nothing). -/
theorem C10_invalid_cursor_noop_witness :
    get_todo_by_path (init_state []).todos (init_state []).current_path = none ∧
    (edit_todo (init_state []) "x" = init_state [] ∧ toggle_todo (init_state []) = init_state []) :=
  ⟨by simp [init_state, get_todo_by_path],
    C10_invalid_cursor_noop (init_state []) "x" (by simp [init_state, get_todo_by_path])⟩

/-- C4 (failing input): `add_todo "B"` on the one-task forest `[A]` with the
cursor at `[0]` appends the task, but the cursor path stays `[0]` instead of
moving to `[1]` (= number of root tasks - 1): the source sets the vestigial
`current_line` attribute instead of `current_path`. -/
theorem C4_add_todo_does_not_move_cursor :
    (add_todo (init_state [Todo.mk "A" false []]) "B").todos
      = [Todo.mk "A" false [], Todo.mk "B" false []] ∧
    (add_todo (init_state [Todo.mk "A" false []]) "B").todos.length - 1 = 1 ∧
    (add_todo (init_state [Todo.mk "A" false []]) "B").current_path = [0] ∧
    (add_todo (init_state [Todo.mk "A" false []]) "B").current_path ≠ [1] ∧
    (add_todo (init_state [Todo.mk "A" false []]) "B").current_line = some 1 := by
  refine ⟨?_, ?_, ?_, ?_, ?_⟩ <;> simp [init_state, add_todo, push_undo, save_todos]

/-- C8 (failing input): `add_subtask "x"` on the empty forest (no task at the
cursor) reports "No parent todo selected." and leaves the forest unchanged,
but it has already pushed an undo snapshot and cleared the redo stack. -/
theorem C8_failed_add_subtask_mutates_stacks :
    (add_subtask { init_state [] with redo_stack := [[Todo.mk "R" false []]] } "x").message
      = "No parent todo selected." ∧
    (add_subtask { init_state [] with redo_stack := [[Todo.mk "R" false []]] } "x").todos = [] ∧
    (add_subtask { init_state [] with redo_stack := [[Todo.mk "R" false []]] } "x").undo_stack
      = [[]] ∧
    ({ init_state [] with redo_stack := [[Todo.mk "R" false []]] } : AppState).undo_stack = [] ∧
    (add_subtask { init_state [] with redo_stack := [[Todo.mk "R" false []]] } "x").redo_stack
      = [] ∧
    ({ init_state [] with redo_stack := [[Todo.mk "R" false []]] } : AppState).redo_stack ≠ [] := by
  refine ⟨?_, ?_, ?_, ?_, ?_, ?_⟩ <;>
    simp [init_state, add_subtask, get_todo_by_path, push_undo, save_todos]

/-- C9 (failing input): on a freshly started app (`add_todo` never ran, so
the `current_line` attribute does not exist), `enter_visual_mode` raises
`AttributeError`; and when `current_line` does exist it is an integer line
number, which is what gets stored in `visual_start`/`visual_end` — not the
cursor's path. -/
theorem C9_enter_visual_mode_raises :
    (enter_visual_mode (init_state [Todo.mk "A" false []])).2 = true ∧
    (enter_visual_mode { init_state [Todo.mk "A" false []] with
        current_line := some 1 }).1.visual_start = some 1 ∧
    (enter_visual_mode { init_state [Todo.mk "A" false []] with
        current_line := some 1 }).1.visual_end = some 1 ∧
    ({ init_state [Todo.mk "A" false []] with
        current_line := some 1 } : AppState).current_path = [0] := by
  refine ⟨?_, ?_, ?_, ?_⟩ <;> simp [init_state, enter_visual_mode]

/-- C7: pasting clipboard `"X\nY"` at cursor `[0]` on the tree `[A, B]`
splits the clipboard into lines inserted as siblings right after the cursor
task, giving `[A, X, Y, B]` with the cursor at `[2]`; an empty or
whitespace-only clipboard reports "Clipboard is empty!" and changes nothing
else. -/
theorem C7_paste_scenario :
    ((paste_todo (init_state [Todo.mk "A" false [], Todo.mk "B" false []])
        (.ok "X\nY")).todos
      = [Todo.mk "A" false [], Todo.mk "X" false [], Todo.mk "Y" false [],
          Todo.mk "B" false []] ∧
      (paste_todo (init_state [Todo.mk "A" false [], Todo.mk "B" false []])
        (.ok "X\nY")).current_path = [2]) ∧
    ∀ (st : AppState) (c : String), py_strip c = "" →
      paste_todo st (.ok c) = { st with message := "Clipboard is empty!" } := by
  constructor
  · have hc : py_strip "X\nY" ≠ "" := by decide
    have hsplit : splitlines "X\nY" = ["X", "Y"] := rfl
    constructor <;>
      simp [paste_todo, hc, hsplit, init_state, get_flattened_paths, flattenAux_cons,
        flattenAux_nil, Todo.children, idxOf?, insert_lines, pyInsert, push_undo, save_todos]
  · intro st c h
    exact paste_todo_empty st c h

/-! ### Recursive characterisation of `delete_step` -/

theorem delete_step_single (ts : List Todo) (k : Nat) :
    delete_step ts [k] = listErase ts k := by
  simp [delete_step]

theorem delete_step_pair (ts : List Todo) (j k : Nat) :
    delete_step ts [j, k] =
      listModify (fun t => Todo.mk t.text t.completed (delete_step t.children [k])) ts j := by
  have hfun : (fun (t : Todo) => Todo.mk t.text t.completed (delete_step t.children [k]))
      = (fun (t : Todo) => Todo.mk t.text t.completed (listErase t.children k)) := by
    funext t; rw [delete_step_single]
  rw [hfun, delete_step]
  simp only [List.length_cons, List.length_singleton, List.length_nil]
  norm_num
  cases hg : ts.get? j with
  | none =>
    have hg' : ts[j]? = none := by simpa using hg
    have hget : get_todo_by_path ts [j] = none := by simp [get_todo_by_path, hg']
    simp only [List.dropLast_cons₂, List.dropLast_single, hget]
    exact (listModify_oob _ ts j hg).symm
  | some t =>
    have hg' : ts[j]? = some t := by simpa using hg
    have hget : get_todo_by_path ts [j] = some t := by simp [get_todo_by_path, hg']
    simp only [List.dropLast_cons₂, List.dropLast_single, hget]
    simp [modify_at, List.getLastD_cons]

theorem delete_step_deep (ts : List Todo) (j r r2 : Nat) (rs : List Nat) :
    delete_step ts (j :: r :: r2 :: rs) =
      listModify (fun t => Todo.mk t.text t.completed (delete_step t.children (r :: r2 :: rs)))
        ts j := by
  have hlen4 : ¬(((j :: r :: r2 :: rs).length == 1) = true) := by
    simp [List.length_cons]
  have hlen3 : ¬((((r : Nat) :: r2 :: rs).length == 1) = true) := by
    simp [List.length_cons]
  have hlast : (j :: r :: r2 :: rs).getLastD 0 = (r :: r2 :: rs).getLastD 0 := by
    simp [List.getLastD_cons]
  cases hg : ts.get? j with
  | none =>
    have hg' : ts[j]? = none := by simpa using hg
    have hget : get_todo_by_path ts (j :: r :: (r2 :: rs).dropLast) = none := by
      simp [get_todo_by_path, hg']
    rw [delete_step, if_neg hlen4]
    simp only [List.dropLast_cons₂, hget]
    exact (listModify_oob _ ts j hg).symm
  | some t =>
    have hg' : ts[j]? = some t := by simpa using hg
    cases hgc : get_todo_by_path t.children (r :: (r2 :: rs).dropLast) with
    | none =>
      have hget : get_todo_by_path ts (j :: r :: (r2 :: rs).dropLast) = none := by
        simp [get_todo_by_path, hg', hgc]
      have hstep : delete_step t.children (r :: r2 :: rs) = t.children := by
        rw [delete_step, if_neg hlen3]
        simp only [List.dropLast_cons₂, hgc]
      rw [delete_step, if_neg hlen4]
      simp only [List.dropLast_cons₂, hget]
      refine (listModify_id _ ts j t hg ?_).symm
      rw [hstep]
      exact Todo.eta t
    | some q =>
      have hget : get_todo_by_path ts (j :: r :: (r2 :: rs).dropLast) = some q := by
        simp [get_todo_by_path, hg', hgc]
      have hstep : delete_step t.children (r :: r2 :: rs) =
          modify_at (fun t' => Todo.mk t'.text t'.completed
            (listErase t'.children ((r :: r2 :: rs).getLastD 0)))
            t.children (r :: (r2 :: rs).dropLast) := by
        rw [delete_step, if_neg hlen3]
        simp only [List.dropLast_cons₂, hgc]
      rw [delete_step, if_neg hlen4]
      simp only [hget, List.dropLast_cons₂, hlast]
      rw [modify_at]
      refine listModify_congr _ _ ts j t hg ?_
      rw [hstep]

theorem delete_step_cons (rest : List Nat) (hne : rest ≠ []) (ts : List Todo) (j : Nat) :
    delete_step ts (j :: rest) =
      listModify (fun t => Todo.mk t.text t.completed (delete_step t.children rest)) ts j := by
  cases rest with
  | nil => exact absurd rfl hne
  | cons r rs =>
    cases rs with
    | nil => exact delete_step_pair ts j r
    | cons r2 rs2 => exact delete_step_deep ts j r r2 rs2

/-! ### Deleting a task removes exactly its subtree (by count) -/

theorem count_tasks_cons (t : Todo) (ts : List Todo) :
    count_tasks (t :: ts) = 1 + count_tasks t.children + count_tasks ts := by
  simp [count_tasks]

theorem count_listErase : ∀ (ts : List Todo) (j : Nat) (t : Todo), ts.get? j = some t →
    count_tasks ts = count_tasks (listErase ts j) + (1 + count_tasks t.children) := by
  intro ts
  induction ts with
  | nil => intro j t h; simp at h
  | cons a as ih =>
    intro j t h
    cases j with
    | zero =>
      simp at h
      subst h
      simp only [listErase, count_tasks_cons]
      omega
    | succ n =>
      simp at h
      rw [show listErase (a :: as) (n + 1) = a :: listErase as n from rfl,
        count_tasks_cons, count_tasks_cons, ih n t (by simpa using h)]
      omega

theorem count_listModify : ∀ (ts : List Todo) (j : Nat) (u : Todo) (g : Todo → Todo),
    ts.get? j = some u →
    count_tasks (listModify g ts j) + count_tasks u.children
      = count_tasks ts + count_tasks (g u).children := by
  intro ts
  induction ts with
  | nil => intro j u g h; simp at h
  | cons a as ih =>
    intro j u g h
    cases j with
    | zero =>
      simp at h
      subst h
      simp only [listModify, count_tasks_cons]
      omega
    | succ n =>
      simp at h
      rw [show listModify g (a :: as) (n + 1) = a :: listModify g as n from rfl,
        count_tasks_cons, count_tasks_cons]
      have := ih n u g (by simpa using h)
      omega

/-- Deleting the task at a valid path removes it and its whole subtree. -/
theorem count_delete_step : ∀ (p : List Nat) (ts : List Todo) (t : Todo),
    get_todo_by_path ts p = some t →
    count_tasks ts = count_tasks (delete_step ts p) + (1 + count_tasks t.children) := by
  intro p
  induction p with
  | nil => intro ts t h; simp [get_todo_by_path] at h
  | cons j rest ih =>
    intro ts t h
    cases rest with
    | nil =>
      rw [delete_step_single]
      exact count_listErase ts j t (by simpa [get_todo_by_path] using h)
    | cons r rs =>
      rw [delete_step_cons (r :: rs) (by simp) ts j]
      cases hg : ts.get? j with
      | none =>
        rw [get_todo_by_path] at h
        rw [hg] at h
        simp at h
      | some u =>
        have hu : get_todo_by_path u.children (r :: rs) = some t := by
          rw [get_todo_by_path] at h
          rw [hg] at h
          exact h
        have hchild := ih u.children t hu
        have hmod := count_listModify ts j u
          (fun t' => Todo.mk t'.text t'.completed (delete_step t'.children (r :: rs))) hg
        simp only [Todo.children_mk] at hmod
        omega

/-- Witness for C7: a whitespace-only clipboard pasted into the empty app
only sets the message. -/
theorem C7_paste_scenario_witness :
    paste_todo (init_state []) (.ok " ") = { init_state [] with message := "Clipboard is empty!" } :=
  C7_paste_scenario.2 (init_state []) " " (by decide)

/-! ### The flattening of a forest after a deletion -/

theorem shiftHead_zero (q : List Nat) : shiftHead 0 q = q := by
  cases q <;> simp [shiftHead]

theorem flatA (K : List Todo) :
    flattenAux [0] 0 K = (get_flattened_paths K).map (fun q => 0 :: q) := by
  rw [get_flattened_paths, flattenAux_eq_map]
  apply List.map_congr_left
  intro q _
  simp [shiftHead_zero]

theorem flatB (ts : List Todo) :
    flattenAux [] 1 ts = (get_flattened_paths ts).map (shiftHead 1) := by
  rw [get_flattened_paths, flattenAux_eq_map]
  apply List.map_congr_left
  intro q _
  simp

/-- The flattening of a non-empty forest: the head task's path, its subtree
paths prefixed with `0`, then the tail forest's paths with head shifted. -/
theorem flat_cons_decomp (t : Todo) (ts : List Todo) :
    get_flattened_paths (t :: ts) =
      [0] :: ((get_flattened_paths t.children).map (fun q => 0 :: q) ++
        (get_flattened_paths ts).map (shiftHead 1)) := by
  rw [get_flattened_paths, flattenAux_cons]
  simp only [List.nil_append]
  rw [show (0 + 1) = 1 from rfl, flatA, flatB]

theorem idxOf?_cons_ne [DecidableEq α] (x a : α) (l : List α) (h : x ≠ a) :
    idxOf? (x :: l) a = (idxOf? l a).map (· + 1) := by
  simp [idxOf?, h]

theorem idxOf?_A_none (K : List Todo) (h : Nat) (tl : List Nat) :
    idxOf? ((get_flattened_paths K).map (fun q => 0 :: q)) ((h + 1) :: tl) = none := by
  apply idxOf?_eq_none
  intro x hx
  obtain ⟨q, _, rfl⟩ := List.mem_map.mp hx
  simp

theorem idxOf?_A_inj (K : List Todo) (tl : List Nat) :
    idxOf? ((get_flattened_paths K).map (fun q => 0 :: q)) (0 :: tl) =
      idxOf? (get_flattened_paths K) tl := by
  have := idxOf?_map_inj (fun (q : List Nat) => 0 :: q) (get_flattened_paths K) tl
    (by intro x _; simp)
  simpa using this

theorem idxOf?_B_inj (ts : List Todo) (h : Nat) (tl : List Nat) :
    idxOf? ((get_flattened_paths ts).map (shiftHead 1)) ((h + 1) :: tl) =
      idxOf? (get_flattened_paths ts) (h :: tl) := by
  have hf : shiftHead 1 (h :: tl) = (h + 1) :: tl := by
    simp [shiftHead]; omega
  rw [← hf]
  apply idxOf?_map_inj (shiftHead 1) (get_flattened_paths ts) (h :: tl)
  intro x hx
  have hne := flattenAux_ne_nil ts [] 0 x hx
  cases x with
  | nil => exact absurd rfl hne
  | cons a b =>
    simp [shiftHead]

theorem idxOf?_B_none_head0 (ts : List Todo) (tl : List Nat) :
    idxOf? ((get_flattened_paths ts).map (shiftHead 1)) (0 :: tl) = none := by
  apply idxOf?_eq_none
  intro x hx
  obtain ⟨q, hq, rfl⟩ := List.mem_map.mp hx
  have hne := flattenAux_ne_nil ts [] 0 q hq
  cases q with
  | nil => exact absurd rfl hne
  | cons a b => simp [shiftHead]

/-- Deleting the task at flattened position `i` leaves the first `i`
flattened paths unchanged: they form a prefix of the new flattening. -/
theorem take_pfx_delete : ∀ (rest : List Nat) (ts : List Todo) (j i : Nat),
    idxOf? (get_flattened_paths ts) (j :: rest) = some i →
    isPfx ((get_flattened_paths ts).take i)
      (get_flattened_paths (delete_step ts (j :: rest))) := by
  intro rest
  induction rest with
  | nil =>
    intro ts
    induction ts with
    | nil => intro j i h; simp [get_flattened_paths, flattenAux_nil, idxOf?] at h
    | cons t ts ihts =>
      intro j i h
      rw [flat_cons_decomp] at h
      cases j with
      | zero =>
        simp [idxOf?] at h
        subst h
        exact ⟨get_flattened_paths (delete_step (t :: ts) [0]), by simp⟩
      | succ hh =>
        rw [idxOf?_cons_ne _ _ _ (by simp), idxOf?_append, idxOf?_A_none, idxOf?_B_inj] at h
        cases hB : idxOf? (get_flattened_paths ts) [hh] with
        | none => rw [hB] at h; simp at h
        | some i2 =>
          rw [hB] at h
          simp only [Option.map_some'] at h
          injection h with h
          subst h
          rw [delete_step_single,
            show listErase (t :: ts) (hh + 1) = t :: listErase ts hh from rfl,
            flat_cons_decomp, flat_cons_decomp]
          have hih := ihts hh i2 hB
          rw [delete_step_single] at hih
          rw [show i2 + ((get_flattened_paths t.children).map (fun q => 0 :: q)).length + 1
              = (((get_flattened_paths t.children).map (fun q => 0 :: q)).length + i2) + 1
            from by omega]
          rw [List.take_succ_cons, List.take_append, ← List.map_take]
          exact isPfx_cons [0] _ _ (isPfx_append_left _ _ _ (isPfx_map _ _ _ hih))
  | cons r rs ih =>
    intro ts
    induction ts with
    | nil => intro j i h; simp [get_flattened_paths, flattenAux_nil, idxOf?] at h
    | cons t ts ihts =>
      intro j i h
      rw [flat_cons_decomp] at h
      cases j with
      | zero =>
        rw [idxOf?_cons_ne _ _ _ (by simp), idxOf?_append, idxOf?_A_inj] at h
        cases hA : idxOf? (get_flattened_paths t.children) (r :: rs) with
        | none => rw [hA, idxOf?_B_none_head0] at h; simp at h
        | some iA =>
          rw [hA] at h
          simp only [Option.map_some'] at h
          injection h with h
          subst h
          have hstep : delete_step (t :: ts) (0 :: r :: rs) =
              Todo.mk t.text t.completed (delete_step t.children (r :: rs)) :: ts := by
            rw [delete_step_cons (r :: rs) (by simp)]
            rfl
          rw [hstep, flat_cons_decomp, flat_cons_decomp, Todo.children_mk]
          have hlt : iA < ((get_flattened_paths t.children).map (fun q => 0 :: q)).length := by
            rw [List.length_map]
            exact idxOf?_lt_length _ _ _ hA
          rw [List.take_succ_cons, List.take_append_of_le_length (by omega), ← List.map_take]
          exact isPfx_cons [0] _ _
            (isPfx_extend _ _ _ (isPfx_map _ _ _ (ih t.children r iA hA)))
      | succ hh =>
        rw [idxOf?_cons_ne _ _ _ (by simp), idxOf?_append, idxOf?_A_none, idxOf?_B_inj] at h
        cases hB : idxOf? (get_flattened_paths ts) (hh :: r :: rs) with
        | none => rw [hB] at h; simp at h
        | some i2 =>
          rw [hB] at h
          simp only [Option.map_some'] at h
          injection h with h
          subst h
          have hstep : delete_step (t :: ts) ((hh + 1) :: r :: rs) =
              t :: delete_step ts (hh :: r :: rs) := by
            rw [delete_step_cons (r :: rs) (by simp),
              show listModify (fun u => Todo.mk u.text u.completed (delete_step u.children (r :: rs)))
                  (t :: ts) (hh + 1)
                = t :: listModify (fun u => Todo.mk u.text u.completed (delete_step u.children (r :: rs)))
                  ts hh from rfl,
              ← delete_step_cons (r :: rs) (by simp)]
          rw [hstep, flat_cons_decomp, flat_cons_decomp]
          have hih := ihts hh i2 hB
          rw [show i2 + ((get_flattened_paths t.children).map (fun q => 0 :: q)).length + 1
              = (((get_flattened_paths t.children).map (fun q => 0 :: q)).length + i2) + 1
            from by omega]
          rw [List.take_succ_cons, List.take_append, ← List.map_take]
          exact isPfx_cons [0] _ _ (isPfx_append_left _ _ _ (isPfx_map _ _ _ hih))

/-- The two outcomes of `delete_todo` once the cursor was found in the
flattened list: a clipboard failure escapes after the history was already
touched but before the tree changed; a successful copy removes the subtree
and repositions the cursor. -/
theorem delete_todo_found_result (st : AppState) (i : Nat)
    (h : idxOf? (get_flattened_paths st.todos) st.current_path = some i) :
    ((delete_todo st false).1.todos = st.todos ∧
      (delete_todo st false).2 = true) ∧
    ((delete_todo st true).1.todos = delete_step st.todos st.current_path ∧
      (delete_todo st true).2 = false ∧
      (delete_todo st true).1.current_path =
        (if (get_flattened_paths (delete_step st.todos st.current_path)).isEmpty then [0]
         else (get_flattened_paths (delete_step st.todos st.current_path)).getD (i - 1) [])) := by
  obtain ⟨hpath, hget⟩ := delete_path_get st i h
  have hpath' : (get_flattened_paths st.todos)[i]?.getD [] = st.current_path := by
    simpa using hpath
  cases hg : get_todo_by_path st.todos st.current_path with
  | none => rw [hg] at hget; simp at hget
  | some t =>
    refine ⟨⟨?_, ?_⟩, ?_, ?_, ?_⟩ <;>
      simp [delete_todo, h, hpath', hg, push_undo, save_todos]

/-- C6: with the cursor at flattened index `i`, a completed `delete_todo`
repositions the cursor to the entry at flattened index `max(0, i-1)` of the
post-delete flattened list — an index that is always in range — or to the
sentinel `[0]` when the forest became empty. -/
theorem C6_delete_cursor_reposition (st : AppState) (i : Nat)
    (h : idxOf? (get_flattened_paths st.todos) st.current_path = some i) :
    (get_flattened_paths (delete_todo st true).1.todos = [] →
      (delete_todo st true).1.current_path = [0]) ∧
    (get_flattened_paths (delete_todo st true).1.todos ≠ [] →
      i - 1 < (get_flattened_paths (delete_todo st true).1.todos).length ∧
      (delete_todo st true).1.current_path
        = (get_flattened_paths (delete_todo st true).1.todos).getD (i - 1) []) := by
  obtain ⟨-, htodos, -, hcur⟩ := delete_todo_found_result st i h
  rw [htodos, hcur]
  constructor
  · intro hempty
    rw [hempty]
    simp
  · intro hne
    have hbound : i - 1 < (get_flattened_paths (delete_step st.todos st.current_path)).length := by
      rcases Nat.eq_zero_or_pos i with hi | hi
      · subst hi
        simpa [List.length_pos] using hne
      · have hcp : st.current_path ∈ get_flattened_paths st.todos := idxOf?_mem _ _ _ h
        have hcpne : st.current_path ≠ [] := flattenAux_ne_nil _ _ _ _ hcp
        obtain ⟨j, rest, hjr⟩ : ∃ j rest, st.current_path = j :: rest := by
          cases hx : st.current_path with
          | nil => exact absurd hx hcpne
          | cons a b => exact ⟨a, b, rfl⟩
        rw [hjr] at h ⊢
        have hpfx := take_pfx_delete rest st.todos j i h
        have hlen := isPfx_length_le _ _ hpfx
        rw [List.length_take] at hlen
        have hilt := idxOf?_lt_length _ _ _ h
        omega
    refine ⟨hbound, ?_⟩
    rw [if_neg (by simpa [List.isEmpty_iff] using hne)]

/-- Witness for C6: deleting `B` (flattened index 1) from `[A, B]` leaves
the cursor on the entry at index 0 of the one-entry post-delete list. -/
theorem C6_delete_cursor_reposition_witness :
    1 - 1 < (get_flattened_paths (delete_todo { init_state
        [Todo.mk "A" false [], Todo.mk "B" false []] with
          current_path := [1] } true).1.todos).length ∧
    (delete_todo { init_state [Todo.mk "A" false [], Todo.mk "B" false []] with
        current_path := [1] } true).1.current_path
      = (get_flattened_paths (delete_todo { init_state
          [Todo.mk "A" false [], Todo.mk "B" false []] with
            current_path := [1] } true).1.todos).getD (1 - 1) [] :=
  (C6_delete_cursor_reposition
    { init_state [Todo.mk "A" false [], Todo.mk "B" false []] with current_path := [1] } 1
    (by simp [init_state, get_flattened_paths, flattenAux_cons, flattenAux_nil,
      Todo.children, idxOf?])).2
    (by simp [init_state, delete_todo, delete_step, listErase, get_todo_by_path,
      get_flattened_paths, flattenAux_cons, flattenAux_nil, Todo.children, idxOf?,
      push_undo, save_todos])

/-- C5 counterexample: on the forest `[A]` with the cursor at the valid path
`[0]`, a failing clipboard copy makes `delete_todo` abort before the
removal: the task is still present afterwards and the exception escaped. -/
theorem C5_counterexample_clipboard_failure_keeps_task :
    idxOf? (get_flattened_paths (init_state [Todo.mk "A" false []]).todos)
      (init_state [Todo.mk "A" false []]).current_path = some 0 ∧
    (delete_todo (init_state [Todo.mk "A" false []]) false).1.todos
      = [Todo.mk "A" false []] ∧
    (delete_todo (init_state [Todo.mk "A" false []]) false).2 = true := by
  refine ⟨?_, ?_, ?_⟩ <;>
    simp [init_state, delete_todo, get_todo_by_path, get_flattened_paths,
      flattenAux_cons, flattenAux_nil, Todo.children, idxOf?, push_undo]

/-- C5 (amended): `delete_todo` copies to the clipboard before removing the
task, and the copy is not guarded: when the copy fails, the exception
propagates and the forest is left unchanged (though the undo snapshot was
already pushed and the redo stack cleared); when the copy succeeds, the task
and its subtree are removed. -/
theorem C5_amended_clipboard_failure_aborts (st : AppState) (i : Nat)
    (h : idxOf? (get_flattened_paths st.todos) st.current_path = some i) :
    ((delete_todo st false).1.todos = st.todos ∧
      (delete_todo st false).2 = true ∧
      (delete_todo st false).1.undo_stack = st.todos :: st.undo_stack ∧
      (delete_todo st false).1.redo_stack = []) ∧
    ((delete_todo st true).2 = false ∧
      count_tasks (delete_todo st true).1.todos < count_tasks st.todos) := by
  obtain ⟨⟨h1, h2⟩, h3, h4, -⟩ := delete_todo_found_result st i h
  obtain ⟨h5, h6⟩ := delete_todo_found_stacks st false i h
  refine ⟨⟨h1, h2, h5, h6⟩, h4, ?_⟩
  rw [h3]
  obtain ⟨-, hget⟩ := delete_path_get st i h
  obtain ⟨t, ht⟩ := Option.isSome_iff_exists.mp hget
  have := count_delete_step st.current_path st.todos t ht
  omega

/-- Witness for the amended C5 on the forest `[A]` with the cursor at `[0]`. -/
theorem C5_amended_clipboard_failure_aborts_witness :
    ((delete_todo (init_state [Todo.mk "A" false []]) false).1.todos
        = (init_state [Todo.mk "A" false []]).todos ∧
      (delete_todo (init_state [Todo.mk "A" false []]) false).2 = true ∧
      (delete_todo (init_state [Todo.mk "A" false []]) false).1.undo_stack
        = (init_state [Todo.mk "A" false []]).todos
          :: (init_state [Todo.mk "A" false []]).undo_stack ∧
      (delete_todo (init_state [Todo.mk "A" false []]) false).1.redo_stack = []) ∧
    ((delete_todo (init_state [Todo.mk "A" false []]) true).2 = false ∧
      count_tasks (delete_todo (init_state [Todo.mk "A" false []]) true).1.todos
        < count_tasks (init_state [Todo.mk "A" false []]).todos) :=
  C5_amended_clipboard_failure_aborts (init_state [Todo.mk "A" false []]) 0
    (by simp [init_state, get_flattened_paths, flattenAux_cons, flattenAux_nil,
      Todo.children, idxOf?])
